import Mathlib

/-!
# Verification of the svg2gcode 2D geometry engine

Shallow embedding of the core of the repository (the `geo` module: points,
edges and their predicates, shapes, contours and the contour merge
algorithm, plus the G-code motion state machine of `io/gcode_generator.rs`)
into Lean 4, over exact rational arithmetic.

Conventions used throughout, explained once here:

* The source computes with `f32`.  The embedding uses `ℚ`; floating-point
  rounding is outside the model (all concrete inputs appearing in theorems
  below are exactly representable, so the modelled runs coincide with the
  source's runs on them).
* The source compares a few square roots (`magnitude`, `distance`) against
  thresholds or against each other.  Since all those comparisons are between
  non-negative reals, `a < b ↔ a^2 < b^2`, the embedding carries the
  *squared* quantities (`normSq`, `distance_sq`) and squares the thresholds.
  Every such reformulation is noted at the definition it concerns.
* `assert!`-style panics and fuelled loops are modelled with `Option`:
  `none` means the source would panic (or the fuel ran out, where a fuel
  parameter is used; the relevant theorems show the fuel bounds used are
  sufficient, i.e. the loops terminate).
-/

-- Batteries marks the `Rat` field operations `@[irreducible]`, which stops
-- `decide` from evaluating concrete rational arithmetic.  The reducibility
-- status is local to this file; the kernel re-checks every `decide` proof
-- independently of it.
attribute [local semireducible] Rat.add Rat.sub Rat.mul Rat.inv

namespace SvgGeo

/-- 2D point (also used as a 2D vector, as `nalgebra`'s `Point2`/`Vector2`
both are pairs of coordinates; `src/geo/mod.rs` has `Point`/`Vector`). -/
structure Pt where
  x : ℚ
  y : ℚ
deriving DecidableEq, Repr

instance : Add Pt := ⟨fun p q => ⟨p.x + q.x, p.y + q.y⟩⟩
instance : Sub Pt := ⟨fun p q => ⟨p.x - q.x, p.y - q.y⟩⟩

theorem Pt.add_def (p q : Pt) : p + q = ⟨p.x + q.x, p.y + q.y⟩ := rfl

theorem Pt.sub_def (p q : Pt) : p - q = ⟨p.x - q.x, p.y - q.y⟩ := rfl

theorem Pt.ext (a b : Pt) (hx : a.x = b.x) (hy : a.y = b.y) : a = b := by
  cases a; cases b; cases hx; cases hy; rfl

@[simp] theorem Pt.add_x (p q : Pt) : (p + q).x = p.x + q.x := rfl

@[simp] theorem Pt.add_y (p q : Pt) : (p + q).y = p.y + q.y := rfl

@[simp] theorem Pt.sub_x (p q : Pt) : (p - q).x = p.x - q.x := rfl

@[simp] theorem Pt.sub_y (p q : Pt) : (p - q).y = p.y - q.y := rfl

/-- Scalar multiple of a 2D vector. -/
def smul (a : ℚ) (p : Pt) : Pt := ⟨a * p.x, a * p.y⟩

/-- Dot product. -/
def dot (p q : Pt) : ℚ := p.x * q.x + p.y * q.y

/-- 2D cross product (`p.x * q.y - p.y * q.x`). -/
def crossp (p q : Pt) : ℚ := p.x * q.y - p.y * q.x

/-- Squared Euclidean norm (the source's `magnitude_squared`; also stands in
for `magnitude` wherever the source only compares magnitudes, see the
header). -/
def normSq (p : Pt) : ℚ := p.x * p.x + p.y * p.y

/-- Rotate a vector by 90° counterclockwise (`Edge::left` applied to the
direction vector). -/
def vleft (v : Pt) : Pt := ⟨-v.y, v.x⟩

/-- Rotate a vector by 90° clockwise (`Edge::right`). -/
def vright (v : Pt) : Pt := ⟨v.y, -v.x⟩

/-- The tolerance `E: Float = 0.001` of `src/geo/mod.rs`. -/
def E : ℚ := 1/1000

/-- The `feq!` macro: `(f1 - f2).abs() < E`. -/
def feq (a b : ℚ) : Bool := decide (|a - b| < E)

/-- The `p2eq!` macro: both coordinate differences below `E`. -/
def p2eq (p q : Pt) : Bool := feq p.x q.x && feq p.y q.y

/-- `Turning` of `src/geo/edge.rs` (declaration order `Left`, `Collinear`,
`Right`; the derived Rust `PartialOrd` therefore has
`Left < Collinear < Right`). -/
inductive Turning where
  | Left
  | Collinear
  | Right
deriving DecidableEq, Repr

/-- A directed edge.  The source's `Edge::from` asserts that the two points
are not `p2eq`-equal; the embedding keeps the structure total and states
that hypothesis at the theorems that need it. -/
structure Edge where
  s : Pt
  e : Pt
deriving DecidableEq, Repr

/-- Direction vector of an edge. -/
def Edge.vec (ed : Edge) : Pt := ed.e - ed.s

/-- `Edge::turning`.  The source computes `dot = left().normalize() ⬝ (next -
start)` — the signed perpendicular distance of `next` from the edge's
line — and classifies it against `E`.  With `c = crossp vec (next - start)`
we have `dot = c / ‖vec‖`, so `|dot| < E ↔ c^2 < E^2 * normSq vec` and
`dot > 0 ↔ c > 0` (squared-comparison convention, see header; for a
zero-length edge the source's `normalize` produces NaN, every comparison on
which is false, giving `Right` — the embedding gives `Right` there too). -/
def Edge.turning (ed : Edge) (next : Pt) : Turning :=
  let c := crossp ed.vec (next - ed.s)
  if c ^ 2 < E ^ 2 * normSq ed.vec then .Collinear
  else if 0 < c then .Left
  else .Right

/-- `Edge::crosses`: both points of each edge strictly on opposite sides of
the other edge, no collinearity anywhere. -/
def Edge.crosses (e1 e2 : Edge) : Bool :=
  let t1 := e1.turning e2.s
  let t2 := e1.turning e2.e
  let t3 := e2.turning e1.s
  let t4 := e2.turning e1.e
  if t1 = .Collinear ∨ t2 = .Collinear ∨ t3 = .Collinear ∨ t4 = .Collinear then
    false
  else
    decide (t1 ≠ t2) && decide (t3 ≠ t4)

/-- The `closest_center` closure of `Edge::find_intersection`: midpoint of
the two mutually closest endpoints (`na::center`).  Distance comparisons are
between square roots in the source, hence squared distances here.  The
distance function is a parameter to break the source's (runtime-bounded)
mutual recursion between `distance` and `find_intersection`; see
`Edge.distance_sq` below. -/
def closest_center (dsq : Edge → Pt → ℚ) (e1 e2 : Edge) : Pt :=
  let self_closest := if dsq e2 e1.s < dsq e2 e1.e then e1.s else e1.e
  let other_closest := if dsq e1 e2.s < dsq e1 e2.e then e2.s else e2.e
  smul (1/2) (self_closest + other_closest)

/-- `Edge::find_intersection`, parameterised by the (squared) distance
function used by `closest_center`.  `none` models the source's `assert!`
panics on parallel non-collinear input. -/
def find_intersection_with (dsq : Edge → Pt → ℚ) (e1 e2 : Edge) : Option Pt :=
  let self_dx := e1.e.x - e1.s.x
  let self_dy := e1.e.y - e1.s.y
  let other_dx := e2.e.x - e2.s.x
  let other_dy := e2.e.y - e2.s.y
  if |self_dy| < E ∧ |other_dy| < E then
    -- both lines horizontal
    if |e1.s.y - e2.s.y| < E then some (closest_center dsq e1 e2) else none
  else if |self_dx| < E ∧ |other_dx| < E then
    -- both lines vertical
    if |e1.s.x - e2.s.x| < E then some (closest_center dsq e1 e2) else none
  else if |self_dx| < E then
    -- only `self` vertical
    some ⟨e1.s.x, (e1.s.x - e2.s.x) * other_dy / other_dx + e2.s.y⟩
  else if |other_dx| < E then
    -- only `other` vertical
    some ⟨e2.s.x, (e2.s.x - e1.s.x) * self_dy / self_dx + e1.s.y⟩
  else
    let self_m := self_dy / self_dx
    let other_m := other_dy / other_dx
    if feq self_m other_m then
      if feq (self_m * (-e1.s.x) + e1.s.y) (other_m * (-e2.s.x) + e2.s.y) then
        some (closest_center dsq e1 e2)
      else none
    else
      let x := (e1.s.x * self_m - e2.s.x * other_m - e1.s.y + e2.s.y) / (self_m - other_m)
      some ⟨x, self_m * (x - e1.s.x) + e1.s.y⟩

/-- `Edge::distance`, squared (see header), parameterised by the
intersection function used in the perpendicular-foot branch.  The source's
`turning1 > Turning::Left` is `≠ Left` and `turning2 < Turning::Right` is
`≠ Right` (three-element total order).  In the foot branch the source takes
the magnitude of `find_intersection(self, fake_p_line) - p`; that call never
reaches `closest_center` or the asserts (the fake line is perpendicular to
`self`, see `fi_foot_on_line` below), so the `none` fallback value is
arbitrary (`0` here). -/
def distance_sq_with (fi : Edge → Edge → Option Pt) (ed : Edge) (p : Pt) : ℚ :=
  let v := ed.vec
  let p2s := normSq (ed.s - p)
  let p2e := normSq (ed.e - p)
  if p2s < E ^ 2 ∨ p2e < E ^ 2 then 0
  else if feq v.x 0 then
    -- `self` is vertical
    if (ed.s.y ≤ p.y ∧ p.y ≤ ed.e.y) ∨ (ed.e.y ≤ p.y ∧ p.y ≤ ed.s.y) then
      (ed.s.x - p.x) ^ 2
    else
      min p2s p2e
  else
    let t1 := Edge.turning ⟨ed.s, ed.s + vleft v⟩ p
    let t2 := Edge.turning ⟨ed.e, ed.e + vleft v⟩ p
    if t1 ≠ .Left ∧ t2 ≠ .Right then
      match fi ed ⟨p, p + vleft v⟩ with
      | some q => normSq (q - p)
      | none => 0
    else
      min p2s p2e

/-- `find_intersection` as called from `distance`'s foot branch.  On that
branch `closest_center` is unreachable, so the distance parameter is junk. -/
def fi_noCC : Edge → Edge → Option Pt := find_intersection_with (fun _ _ => 0)

/-- `Edge::distance`, squared. -/
def Edge.distance_sq : Edge → Pt → ℚ := distance_sq_with fi_noCC

/-- `Edge::find_intersection` (the full version, whose `closest_center` uses
the real distance function). -/
def Edge.find_intersection : Edge → Edge → Option Pt :=
  find_intersection_with Edge.distance_sq

/-- `Edge::touches`.  In the fully collinear special case the source tests
`self.distance(other.start()) < E || self.distance(other.end()) < E`
(squared here, see header). -/
def Edge.touches (e1 e2 : Edge) : Bool :=
  let t1 := e1.turning e2.s
  let t2 := e1.turning e2.e
  let t3 := e2.turning e1.s
  let t4 := e2.turning e1.e
  if t1 = .Collinear ∧ t2 = .Collinear ∧ t3 = .Collinear ∧ t4 = .Collinear then
    -- special case: the edges are collinear
    decide (e1.distance_sq e2.s < E ^ 2) || decide (e1.distance_sq e2.e < E ^ 2)
  else
    decide (t1 = .Collinear ∨ t2 = .Collinear ∨ t3 = .Collinear ∨ t4 = .Collinear)
      && decide (t1 ≠ t2) && decide (t3 ≠ t4)

/-! ## Shapes (`src/geo/shape.rs`) -/

/-- `get_boundary_edges`: each point paired with its successor, cyclically.
The source `expect`s a non-empty boundary; every caller guards this, and the
embedding returns `[]` on the empty list. -/
def boundary_edges (boundary : List Pt) : List Edge :=
  match boundary with
  | [] => []
  | p0 :: _ => (boundary.zip (boundary.tail ++ [p0])).map fun q => ⟨q.1, q.2⟩

/-- `get_boundary_edge_pairs`: each boundary edge paired with its successor,
cyclically. -/
def boundary_edge_pairs (boundary : List Pt) : List (Edge × Edge) :=
  match boundary_edges boundary with
  | [] => []
  | e0 :: rest => (e0 :: rest).zip (rest ++ [e0])

/-- `Line`: an open polyline with a thickness (a capsule). -/
structure Line where
  points : List Pt
  thickness : ℚ
  resolution : ℚ
deriving DecidableEq, Repr

/-- `Line::new`: `ensure!(points.len() >= 2)` then `ensure!(thickness > 0.0)`. -/
def Line.new (points : List Pt) (thickness resolution : ℚ) : Except String Line :=
  if points.length < 2 then .error "A line should have at least 2 points"
  else if thickness ≤ 0 then .error "Thickness must be greater than 0"
  else .ok ⟨points, thickness, resolution⟩

/-- `Line::segments`: consecutive pairs of the polyline's points. -/
def Line.segments (l : Line) : List Edge :=
  (l.points.zip l.points.tail).map fun q => ⟨q.1, q.2⟩

/-- `Line::contains`: some segment within `thickness / 2 + E / 10` of the
point.  The source compares `distance < thickness/2 + E/10` where `distance`
is a square root; squared-comparison convention (see header), with the
`0 < bound` guard making the reformulation exact also for negative
thickness. -/
def Line.contains (l : Line) (p : Pt) : Bool :=
  l.segments.any fun seg =>
    decide (0 < l.thickness / 2 + E / 10 ∧
      seg.distance_sq p < (l.thickness / 2 + E / 10) ^ 2)

/-- `Line::grow`: `thickness += offset * 2.0`. -/
def Line.grow (l : Line) (offset : ℚ) : Line :=
  { l with thickness := l.thickness + offset * 2 }

/-- `ConvexPolygon`: a closed loop of points, ordered counter-clockwise. -/
structure ConvexPolygon where
  boundary : List Pt
  resolution : ℚ
deriving DecidableEq, Repr

/-- `ConvexPolygon::new`: at least 3 points; scan all cyclic edge pairs for
left/right turns; reverse a purely right-turning (clockwise) boundary;
reject a boundary that turns both ways. -/
def ConvexPolygon.new (boundary : List Pt) (resolution : ℚ) :
    Except String ConvexPolygon :=
  if boundary.length < 3 then .error "Need at least 3 points for a polygon"
  else
    let turned_left := (boundary_edge_pairs boundary).any fun q => q.1.turning q.2.e = .Left
    let turned_right := (boundary_edge_pairs boundary).any fun q => q.1.turning q.2.e = .Right
    if turned_right && !turned_left then .ok ⟨boundary.reverse, resolution⟩
    else if turned_right then .error "Boundary is not convex."
    else .ok ⟨boundary, resolution⟩

/-- `ConvexPolygon::contains`: no boundary edge classifies the point
`Right`. -/
def ConvexPolygon.contains (poly : ConvexPolygon) (p : Pt) : Bool :=
  (boundary_edges poly.boundary).all fun ed => decide (ed.turning p ≠ .Right)

/-- `Circle`. -/
structure Circle where
  center : Pt
  radius : ℚ
  resolution : ℚ
deriving DecidableEq, Repr

/-- `Circle::new`.  The source constructor performs no validation and cannot
fail (unlike `Line::new` / `ConvexPolygon::new`, it does not return a
`Result`). -/
def Circle.new (center : Pt) (radius resolution : ℚ) : Circle :=
  ⟨center, radius, resolution⟩

/-- `Circle::contains`: `(center - p).magnitude() <= radius`.  Squared
comparison (see header); the `0 ≤ radius` guard keeps the reformulation
exact for negative radii (a magnitude is never `≤` a negative radius). -/
def Circle.contains (c : Circle) (p : Pt) : Bool :=
  decide (0 ≤ c.radius ∧ normSq (c.center - p) ≤ c.radius ^ 2)

/-- `Circle::grow`: `radius += offset`. -/
def Circle.grow (c : Circle) (offset : ℚ) : Circle :=
  { c with radius := c.radius + offset }

/-- `Line::boundary`, `Circle::boundary` and the nonzero-offset branch of
`ConvexPolygon::grow` tessellate arcs: they multiply by `π` and rotate by
`cos`/`sin` (`Rotation2`), and translate edges by normalised vectors, none
of which has an exact rational counterpart.  The embedding takes these
three routines as a parameter bundle.  No theorem below depends on their
values: the polygon boundary (which all merge claims exercise) is stored
verbatim, and the zero-offset growth claim only uses the source's explicit
`offset == 0.0` early return. -/
structure Tess where
  lineBoundary : Line → List Pt
  circBoundary : Circle → List Pt
  polyGrowPos : ℚ → ConvexPolygon → List Pt

/-- `ConvexPolygon::grow`: explicit early return on `offset == 0.0`,
otherwise rebuild the boundary from the outward-translated, arc-joined
edges (tessellated, hence through `Tess`). -/
def ConvexPolygon.grow (T : Tess) (poly : ConvexPolygon) (offset : ℚ) :
    ConvexPolygon :=
  if offset = 0 then poly
  else { poly with boundary := T.polyGrowPos offset poly }

/-- The closed shape union `ShapeE`. -/
inductive ShapeE where
  | Line (l : Line)
  | Poly (p : ConvexPolygon)
  | Circ (c : Circle)
deriving DecidableEq, Repr

/-- `Shape::grow` dispatched over `ShapeE`. -/
def ShapeE.grow (T : Tess) (offset : ℚ) : ShapeE → ShapeE
  | .Line l => .Line (l.grow offset)
  | .Poly p => .Poly (p.grow T offset)
  | .Circ c => .Circ (c.grow offset)

/-- `Shape::boundary` dispatched over `ShapeE` (`ConvexPolygon::boundary`
returns the stored loop verbatim; the tessellated variants go through
`Tess`). -/
def ShapeE.boundary (T : Tess) : ShapeE → List Pt
  | .Line l => T.lineBoundary l
  | .Poly p => p.boundary
  | .Circ c => T.circBoundary c

/-- `Shape::contains` dispatched over `ShapeE`. -/
def ShapeE.contains (s : ShapeE) (p : Pt) : Bool :=
  match s with
  | .Line l => l.contains p
  | .Poly poly => poly.contains p
  | .Circ c => c.contains p

/-! ## Contours and the merge algorithm (`src/geo/contour.rs`) -/

/-- `Contour`: a closed CCW boundary loop plus the constituent shapes. -/
structure Contour where
  boundary : List Pt
  area : List ShapeE
deriving DecidableEq, Repr

/-- `Contour::new`: cache the shape's boundary, record the shape as the only
constituent. -/
def Contour.new (T : Tess) (shape : ShapeE) : Contour :=
  ⟨shape.boundary T, [shape]⟩

/-- `Contour::edges`: consecutive boundary points, closing back to
`boundary[0]` (the same cyclic pairing as `get_boundary_edges`). -/
def Contour.edges (c : Contour) : List Edge :=
  boundary_edges c.boundary

/-- `Contour::contains`: some constituent shape contains the point. -/
def Contour.contains (c : Contour) (p : Pt) : Bool :=
  c.area.any fun s => s.contains p

/-- `Contour::is_superset_of`: every boundary point of `other` is contained
in `self`. -/
def Contour.is_superset_of (self other : Contour) : Bool :=
  other.boundary.all fun q => self.contains q

/-- `Contour::is_mergeable`: some edge of `self` crosses or touches some
edge of `other`. -/
def Contour.is_mergeable (self other : Contour) : Bool :=
  self.edges.any fun se => other.edges.any fun oe => se.crosses oe || se.touches oe

/-- The intersection-point collection inside `Contour::break_edges`'s
`filter_map`: for each edge of the other contour, assert
`!(crosses && touches)` (a panic, hence `none`), and collect the
intersection point when either predicate holds (`find_intersection`'s own
asserts also surface as `none`). -/
def collect_ints (tseg : Edge) : List Edge → Option (List Pt)
  | [] => some []
  | oseg :: rest =>
    let c := tseg.crosses oseg
    let t := tseg.touches oseg
    if c && t then none
    else if c || t then do
      let p ← tseg.find_intersection oseg
      let ps ← collect_ints tseg rest
      return p :: ps
    else collect_ints tseg rest

/-- Stable insertion into an ascending list (new element after equal keys),
building Rust's stable `sort_by` below. -/
def insert_by (key : Pt → ℚ) (x : Pt) : List Pt → List Pt
  | [] => [x]
  | y :: ys => if key y ≤ key x then y :: insert_by key x ys else x :: y :: ys

/-- Rust's stable `sort_by`, keyed by a rational (the source keys by
`magnitude_squared`, which is already rational). -/
def sort_by_key (key : Pt → ℚ) (l : List Pt) : List Pt :=
  l.foldl (fun acc x => insert_by key x acc) []

/-- The splitting loop of `Contour::break_edges`: walk the sorted
intersection points (with the segment's end appended), skip `p2eq`-empty
pieces, drop pieces whose both endpoints are contained in the other
contour, keep the rest. -/
def split_go (other : Contour) : Pt → List Pt → List Edge
  | _, [] => []
  | prev, p :: rest =>
    if p2eq prev p then split_go other prev rest
    else if other.contains prev && other.contains p then split_go other p rest
    else ⟨prev, p⟩ :: split_go other p rest

/-- The per-source-edge body of `Contour::break_edges`, folded over the
contour's edges. -/
def break_go (other : Contour) : List Edge → Option (List Edge)
  | [] => some []
  | tseg :: rest => do
    let ints ← collect_ints tseg other.edges
    let sorted := sort_by_key (fun q => normSq (tseg.s - q)) ints
    let broken := split_go other tseg.s (sorted ++ [tseg.e])
    let more ← break_go other rest
    return broken ++ more

/-- `Contour::break_edges`: split every edge of `self` at its
crossing/touching points with `other`'s edges, dropping the pieces inside
`other`. -/
def Contour.break_edges (self other : Contour) : Option (List Edge) :=
  break_go other self.edges

/-- The `BelongsTo` provenance tag of the stitching pool. -/
inductive Tag where
  | A
  | B
deriving DecidableEq, Repr

/-- `BelongsTo::other`. -/
def Tag.other : Tag → Tag
  | .A => .B
  | .B => .A

/-- The `find_next` closure of `Contours::merge`: first pool entry (with its
index) carrying the requested tag whose start point `p2eq`-matches
`start`. -/
def find_next : List (Edge × Tag) → Pt → Tag → Option (Nat × Edge × Tag)
  | [], _, _ => none
  | (ed, c) :: rest, start, tag =>
    if c = tag ∧ p2eq start ed.s = true then some (0, ed, c)
    else (find_next rest start tag).map fun q => (q.1 + 1, q.2)

/-- Result of one run of the inner stitching loop of `Contours::merge`:
either the chain closed (returning the remaining pool and the accumulated
chain), or no continuation existed (returning the edges destined for the
`problems` list: the partial chain followed by the rest of the pool), or
the fuel ran out (which `stitch_inner_total` below rules out for the fuel
the caller supplies). -/
inductive StitchRes where
  | closed (remaining : List (Edge × Tag)) (acc : List Edge)
  | failed (problems : List Edge)
  | fuelout
deriving DecidableEq, Repr

/-- The inner `loop` of `Contours::merge`.  `first :: accTail` is
`edges_acc` (never empty: the seed is pushed before the loop starts, so the
source's `edges_acc[0]` cannot panic); `prev` is `(prev_edge, prev_cont)`.
Each pass either closes the loop, consumes one pool entry (preferring the
other contour's tag, `or_else` the same tag), or fails recording the
partial chain and the whole remaining pool. -/
def stitch_inner (fuel : Nat) (edges : List (Edge × Tag)) (first : Edge)
    (accTail : List Edge) (prev : Edge × Tag) : StitchRes :=
  match fuel with
  | 0 => .fuelout
  | fuel + 1 =>
    if p2eq prev.1.e first.s then .closed edges (first :: accTail)
    else
      match (find_next edges prev.1.e prev.2.other).orElse
          (fun _ => find_next edges prev.1.e prev.2) with
      | some (i, e', c') =>
        stitch_inner fuel (edges.eraseIdx i) first (accTail ++ [e']) (e', c')
      | none => .failed ((first :: accTail) ++ edges.map (·.1))

/-- The outer `while !edges.is_empty()` loop of `Contours::merge`: pop the
pool's last entry as the seed (`Vec::pop`), run the inner loop, and on a
closed chain push a new contour whose boundary is the chain's start points
and whose area is the merged constituent list; on a stitching failure
extend `problems` and return (the source `return`s out of `merge`).  The
inner fuel `rest.length + 1` is sufficient (`stitch_inner_total`). -/
def stitch_outer (area : List ShapeE) :
    Nat → List (Edge × Tag) → List Contour → List Edge →
    Option (List Contour × List Edge)
  | 0, _, _, _ => none
  | fuel + 1, edges, cs, ps =>
    match edges.getLast? with
    | none => some (cs, ps)
    | some prev =>
      match stitch_inner (edges.dropLast.length + 1) edges.dropLast prev.1 [] prev with
      | .fuelout => none
      | .failed pr => some (cs, ps ++ pr)
      | .closed rem acc =>
        stitch_outer area fuel rem (cs ++ [⟨acc.map (·.s), area⟩]) ps

/-- Unfolding equation of `stitch_outer` at fuel `0`. -/
theorem stitch_outer_zero (area : List ShapeE) (edges : List (Edge × Tag))
    (cs : List Contour) (ps : List Edge) :
    stitch_outer area 0 edges cs ps = none := rfl

/-- Unfolding equation of `stitch_outer` at successor fuel. -/
theorem stitch_outer_succ (area : List ShapeE) (fuel : Nat)
    (edges : List (Edge × Tag)) (cs : List Contour) (ps : List Edge) :
    stitch_outer area (fuel + 1) edges cs ps =
      match edges.getLast? with
      | none => some (cs, ps)
      | some prev =>
        match stitch_inner (edges.dropLast.length + 1) edges.dropLast prev.1 [] prev with
        | .fuelout => none
        | .failed pr => some (cs, ps ++ pr)
        | .closed rem acc =>
          stitch_outer area fuel rem (cs ++ [⟨acc.map (·.s), area⟩]) ps := rfl

/-- The `Contours` repository: the working set plus the problem list. -/
structure Contours where
  contours : List Contour
  problems : List Edge
deriving DecidableEq, Repr

/-- `Contours::merge`: break each contour's edges against the other, tag the
pools `A` and `B`, pool them (`A`'s first), and stitch.  The outer fuel
`edges.length + 1` is sufficient (`stitch_outer_total`): every outer pass
pops at least one pool entry. -/
def Contours.merge (st : Contours) (a b : Contour) : Option Contours :=
  match a.break_edges b with
  | none => none
  | some edges_a =>
    match b.break_edges a with
    | none => none
    | some edges_b =>
      let edges := edges_a.map (fun ed => (ed, Tag.A)) ++ edges_b.map (fun ed => (ed, Tag.B))
      let area := a.area ++ b.area
      match stitch_outer area (edges.length + 1) edges st.contours st.problems with
      | none => none
      | some (cs, ps) => some ⟨cs, ps⟩

/-- Default used only for list indexing that the pair scan below has already
bounds-checked. -/
def contour_dflt : Contour := ⟨[], []⟩

/-- The inner `for j in (i+1)..len` scan of `Contours::merge_all`: first
`j > i` mergeable with `i`. -/
def first_mergeable_j (cs : List Contour) (i : Nat) : Option Nat :=
  (List.range' (i + 1) (cs.length - (i + 1))).find? fun j =>
    (cs.getD i contour_dflt).is_mergeable (cs.getD j contour_dflt)

/-- The pair scan of `Contours::merge_all`.  The source's inner `break`
leaves the outer `for i` loop running, so a later `i` with a mergeable `j`
overwrites `to_merge`: the scan yields the *last* `i` (with its first `j`),
which this fold reproduces. -/
def find_merge_pair (cs : List Contour) : Option (Nat × Nat) :=
  (List.range cs.length).foldl
    (fun acc i =>
      match first_mergeable_j cs i with
      | some j => some (i, j)
      | none => acc)
    none

/-- `Contours::merge_all`: repeatedly scan for a mergeable pair, remove the
two contours (`j` first — it is the larger index) and merge them back into
the repository, until no pair is mergeable.  `fuel` bounds the number of
merge rounds (the source's `loop` has no such bound; the theorems below
only use runs whose fuel is shown sufficient). -/
def Contours.merge_all (fuel : Nat) (st : Contours) : Option Contours :=
  match fuel with
  | 0 => none
  | fuel + 1 =>
    match find_merge_pair st.contours with
    | none => some st
    | some (i, j) =>
      let b := st.contours.getD j contour_dflt
      let a := st.contours.getD i contour_dflt
      let rest := (st.contours.eraseIdx j).eraseIdx i
      match Contours.merge ⟨rest, st.problems⟩ a b with
      | none => none
      | some st' => Contours.merge_all fuel st'

/-! ## The motion state machine (`src/io/gcode_generator.rs`)

Methods that begin with `assert_eq!(self.state, ...)` are modelled as
`Option`-valued steps (`none` = the assert fires, a panic).  Numeric
arguments are carried as rationals; the emitted command strings are
abstracted into a command datatype (the source only `format!`s the
arguments into fixed templates, so the two are in bijection). -/

inductive GCodeState where
  | Stopped
  | SpinningDisengaged
  | SpinningEngaged
deriving DecidableEq, Repr

/-- One emitted command line (the `actions` strings of the source, in
structured form). -/
inductive GCmd where
  | absolute                                  -- "G90"
  | feed (f : ℚ)                              -- "F{feed}"
  | spindleRpm (s : ℚ)                        -- "S{rpm}"
  | rapidZ (z : ℚ)                            -- "G0 Z{z}"
  | spindleCw                                 -- "M3"
  | spindleCcw                                -- "M4"
  | spindleOff                                -- "M5"
  | linearZ (z : ℚ)                           -- "G1 Z{z}"
  | rapidXY (x y : ℚ)                         -- "G0 X{x} Y{y}"
  | linearXY (x y : ℚ)                        -- "G1 X{x} Y{y}"
  | planeXY                                   -- "G17"
  | helix (x y z i j : ℚ) (p : Nat)           -- "G3 X.. Y.. Z.. I.. J.. P.."
  | arc (x y i j : ℚ)                         -- "G3 X.. Y.. I.. J.."
  | progEnd                                   -- "M2"
deriving DecidableEq, Repr

structure GCodeGenerator where
  safe_height : ℚ
  state : GCodeState
  actions : List GCmd
deriving DecidableEq, Repr

namespace GCodeGenerator

/-- `GCodeGenerator::new`: starts `Stopped` with the preamble emitted. -/
def new (feed rpm safe_height : ℚ) : GCodeGenerator :=
  ⟨safe_height, .Stopped,
    [.absolute, .feed feed, .spindleRpm rpm, .rapidZ safe_height]⟩

/-- `spindle_start_cwise`: asserts `Stopped`. -/
def spindle_start_cwise (g : GCodeGenerator) : Option GCodeGenerator :=
  if g.state = .Stopped then
    some { g with actions := g.actions ++ [.spindleCw], state := .SpinningDisengaged }
  else none

/-- `spindle_start_ccwise`: asserts `Stopped`. -/
def spindle_start_ccwise (g : GCodeGenerator) : Option GCodeGenerator :=
  if g.state = .Stopped then
    some { g with actions := g.actions ++ [.spindleCcw], state := .SpinningDisengaged }
  else none

/-- `spindle_stop`: asserts `SpinningDisengaged`. -/
def spindle_stop (g : GCodeGenerator) : Option GCodeGenerator :=
  if g.state = .SpinningDisengaged then
    some { g with actions := g.actions ++ [.spindleOff], state := .Stopped }
  else none

/-- `engage`: asserts `SpinningDisengaged`, plunges to `Z0`. -/
def engage (g : GCodeGenerator) : Option GCodeGenerator :=
  if g.state = .SpinningDisengaged then
    some { g with actions := g.actions ++ [.linearZ 0], state := .SpinningEngaged }
  else none

/-- `disengage`: asserts `SpinningEngaged`, retracts to the safe height. -/
def disengage (g : GCodeGenerator) : Option GCodeGenerator :=
  if g.state = .SpinningEngaged then
    some { g with actions := g.actions ++ [.linearZ g.safe_height], state := .SpinningDisengaged }
  else none

/-- `rapid`: asserts the state is *not* `SpinningEngaged`. -/
def rapid (g : GCodeGenerator) (x y : ℚ) : Option GCodeGenerator :=
  if g.state ≠ .SpinningEngaged then
    some { g with actions := g.actions ++ [.rapidXY x y] }
  else none

/-- `move_xy`: asserts `SpinningEngaged`. -/
def move_xy (g : GCodeGenerator) (x y : ℚ) : Option GCodeGenerator :=
  if g.state = .SpinningEngaged then
    some { g with actions := g.actions ++ [.linearXY x y] }
  else none

/-- `move_z`: asserts `SpinningEngaged`. -/
def move_z (g : GCodeGenerator) (z : ℚ) : Option GCodeGenerator :=
  if g.state = .SpinningEngaged then
    some { g with actions := g.actions ++ [.linearZ z] }
  else none

/-- `helix_ccwise`: asserts `SpinningEngaged`, emits `G17` then the `G3`
helix. -/
def helix_ccwise (g : GCodeGenerator) (end_x end_y end_z offset_x offset_y : ℚ)
    (turns : Nat) : Option GCodeGenerator :=
  if g.state = .SpinningEngaged then
    some { g with actions := g.actions ++
      [.planeXY, .helix end_x end_y end_z offset_x offset_y turns] }
  else none

/-- `arc_ccwise`: emits `G17` then the `G3` arc.  NOTE: unlike every other
motion method of the source, `arc_ccwise` contains *no* state assertion —
it succeeds in any state.  The model reproduces that verbatim. -/
def arc_ccwise (g : GCodeGenerator) (end_x end_y offset_x offset_y : ℚ) :
    GCodeGenerator :=
  { g with actions := g.actions ++ [.planeXY, .arc end_x end_y offset_x offset_y] }

/-- `into_string`: asserts `Stopped`, appends `M2` and renders the command
log (rendering abstracted: the command list is returned). -/
def into_string (g : GCodeGenerator) : Option (List GCmd) :=
  if g.state = .Stopped then some (g.actions ++ [.progEnd])
  else none

end GCodeGenerator

/-! ## Shared concrete material for the theorems -/

/-- A `Tess` whose tessellated parts are empty.  The concrete contours below
are all polygon-backed, and a polygon's boundary never consults the
tessellator (see `ShapeE.boundary`), so the choice is irrelevant — it only
instantiates the parameter. -/
def trivTess : Tess := ⟨fun _ => [], fun _ => [], fun _ _ => []⟩

/-- The source tests' `poly!` macro: `ConvexPolygon::new(points, 1.0)`
followed by `unwrap` (the fallback is unreachable for every list this file
applies it to — each goes through the `.ok` branch by computation). -/
def polyU (pts : List Pt) : ConvexPolygon :=
  match ConvexPolygon.new pts 1 with
  | .ok p => p
  | .error _ => ⟨[], 1⟩

/-- The source tests' `cont!` macro: `Contour::new(ShapeE::Poly(poly!(..)))`. -/
def contPoly (pts : List Pt) : Contour :=
  Contour.new trivTess (.Poly (polyU pts))

/-- 3×3 square (the `superset` test's outer contour). -/
def sq3x3 : Contour := contPoly [⟨0,0⟩, ⟨3,0⟩, ⟨3,3⟩, ⟨0,3⟩]

/-- 1×1 square strictly inside `sq3x3`. -/
def sq1x1 : Contour := contPoly [⟨1,1⟩, ⟨2,1⟩, ⟨2,2⟩, ⟨1,2⟩]

/-- Unit square `[(0,0),(0,1),(1,1),(1,0)]` of the merge-vertex-count
property. -/
def usq_left : Contour := contPoly [⟨0,0⟩, ⟨0,1⟩, ⟨1,1⟩, ⟨1,0⟩]

/-- Unit square `[(1,0),(1,1),(2,1),(2,0)]`, sharing the full edge `x = 1`
with `usq_left`. -/
def usq_right : Contour := contPoly [⟨1,0⟩, ⟨1,1⟩, ⟨2,1⟩, ⟨2,0⟩]

/-! ## C10 — crossing and touching are mutually exclusive -/

/-- C10: for every pair of non-zero-length edges, `crosses` and `touches`
are never both true, so the `assert!(!crosses || !touches)` inside
`break_edges` cannot fire: `crosses` demands that none of the four turning
classifications is `Collinear`, while every branch of `touches` demands at
least one `Collinear`. -/
theorem c10_crosses_touches_exclusive (e1 e2 : Edge)
    (_h1 : p2eq e1.s e1.e = false) (_h2 : p2eq e2.s e2.e = false) :
    (e1.crosses e2 && e1.touches e2) = false := by
  clear _h1 _h2
  unfold Edge.crosses Edge.touches
  by_cases hc : e1.turning e2.s = .Collinear ∨ e1.turning e2.e = .Collinear ∨
      e2.turning e1.s = .Collinear ∨ e2.turning e1.e = .Collinear
  · simp [hc]
  · have hall : ¬(e1.turning e2.s = .Collinear ∧ e1.turning e2.e = .Collinear ∧
        e2.turning e1.s = .Collinear ∧ e2.turning e1.e = .Collinear) := by
      intro h
      exact hc (Or.inl h.1)
    simp [hc, hall]

/-- Witness for C10 at the crossing diagonals of the source's
`crossing_and_touching` test. -/
theorem c10_witness :
    ((Edge.mk ⟨0,0⟩ ⟨1,1⟩).crosses (Edge.mk ⟨0,1⟩ ⟨1,0⟩) &&
      (Edge.mk ⟨0,0⟩ ⟨1,1⟩).touches (Edge.mk ⟨0,1⟩ ⟨1,0⟩)) = false :=
  c10_crosses_touches_exclusive _ _ (by decide) (by decide)

/-! ## C4 — construction failures -/

/-- Whether an `Except` is an error. -/
def isErr {α : Type} (x : Except String α) : Bool :=
  match x with
  | .error _ => true
  | .ok _ => false

/-- C4 counterexample: `Circle::new` with a negative radius *succeeds* — it
returns a `Circle` (the source constructor does not return a `Result` and
performs no validation), contradicting the claim that every degenerate
construction returns an error. -/
theorem c4_counterexample :
    Circle.new ⟨0,0⟩ (-1) 1 = { center := ⟨0,0⟩, radius := -1, resolution := 1 } :=
  rfl

/-- `ConvexPolygon::new` fails exactly when the boundary is short or turns
both ways (helper for the amended C4). -/
theorem convexPolygon_new_isErr (pts : List Pt) (r : ℚ) :
    isErr (ConvexPolygon.new pts r) = true ↔ pts.length < 3 ∨
      (((boundary_edge_pairs pts).any fun q => q.1.turning q.2.e = .Right) = true ∧
       ((boundary_edge_pairs pts).any fun q => q.1.turning q.2.e = .Left) = true) := by
  unfold ConvexPolygon.new
  by_cases hlen : pts.length < 3
  · simp [hlen, isErr]
  · rw [if_neg hlen]
    by_cases hR : ((boundary_edge_pairs pts).any fun q =>
        decide (q.1.turning q.2.e = Turning.Right)) = true
    · by_cases hL : ((boundary_edge_pairs pts).any fun q =>
          decide (q.1.turning q.2.e = Turning.Left)) = true
      · simp [hR, hL, isErr, hlen]
      · simp only [hR, Bool.not_eq_true] at *
        simp [hR, hL, isErr, hlen]
    · simp only [Bool.not_eq_true] at hR
      simp [hR, isErr, hlen]

/-- C4 (amended): `Line::new` fails exactly on fewer than 2 points or
non-positive thickness; `ConvexPolygon::new` fails exactly on fewer than 3
points or a boundary turning both Right and Left somewhere (i.e. one that
would still turn Right after the canonical reversal); but `Circle::new`
never fails — it is total and does no radius validation. -/
theorem c4_amended_construction_failures :
    (∀ (pts : List Pt) (t r : ℚ),
      isErr (Line.new pts t r) = true ↔ pts.length < 2 ∨ t ≤ 0) ∧
    (∀ (pts : List Pt) (r : ℚ),
      isErr (ConvexPolygon.new pts r) = true ↔ pts.length < 3 ∨
        ((∃ q ∈ boundary_edge_pairs pts, q.1.turning q.2.e = .Right) ∧
         (∃ q ∈ boundary_edge_pairs pts, q.1.turning q.2.e = .Left))) ∧
    (∀ (c : Pt) (r res : ℚ), Circle.new c r res = ⟨c, r, res⟩) := by
  refine ⟨fun pts t r => ?_, fun pts r => ?_, fun _ _ _ => rfl⟩
  · unfold Line.new
    split
    · simp [isErr]; omega
    · split <;> simp_all [isErr]
  · rw [convexPolygon_new_isErr]
    have hr : ((boundary_edge_pairs pts).any fun q => q.1.turning q.2.e = .Right) = true ↔
        ∃ q ∈ boundary_edge_pairs pts, q.1.turning q.2.e = .Right := by
      simp [List.any_eq_true]
    have hl : ((boundary_edge_pairs pts).any fun q => q.1.turning q.2.e = .Left) = true ↔
        ∃ q ∈ boundary_edge_pairs pts, q.1.turning q.2.e = .Left := by
      simp [List.any_eq_true]
    rw [hr, hl]

/-! ## C5 — the arc move has no state assertion (code bug) -/

/-- C5: the spec requires every cutting/helical/arc move outside
`SpinningEngaged` to be fatal, and indeed `move_xy`, `move_z` and
`helix_ccwise` assert the state — but `arc_ccwise` does not: on a freshly
constructed (hence `Stopped`) generator it silently emits `G17`/`G3` and
leaves the machine `Stopped`, while `move_xy` on the same generator
panics.  Evaluating the model at that failing input: -/
theorem c5_arc_ccwise_unchecked :
    (GCodeGenerator.new 100 1000 5).state = .Stopped ∧
    ((GCodeGenerator.new 100 1000 5).arc_ccwise 1 2 3 4 =
      { GCodeGenerator.new 100 1000 5 with
          actions := (GCodeGenerator.new 100 1000 5).actions ++
            [.planeXY, .arc 1 2 3 4] }) ∧
    ((GCodeGenerator.new 100 1000 5).arc_ccwise 1 2 3 4).state = .Stopped ∧
    (GCodeGenerator.new 100 1000 5).move_xy 1 2 = none ∧
    (GCodeGenerator.new 100 1000 5).move_z 1 = none ∧
    (GCodeGenerator.new 100 1000 5).helix_ccwise 1 2 3 4 5 6 = none := by
  refine ⟨rfl, rfl, rfl, ?_, ?_, ?_⟩ <;> decide

/-! ## C9 — merging the two edge-sharing unit squares -/

/-- C9: merging the contours of the unit squares `[(0,0),(0,1),(1,1),(1,0)]`
and `[(1,0),(1,1),(2,1),(2,0)]` (which share the full edge `x = 1`) through
the repository yields exactly one contour, its boundary has exactly 6
vertices, and the problems list is empty.  (`merge_all 2`: the first round
merges the only pair, the second finds no mergeable pair and stops.) -/
theorem c9_two_squares_merge_six_vertices :
    (Contours.merge_all 2 ⟨[usq_left, usq_right], []⟩).map
      (fun st => (st.contours.map fun c => c.boundary.length, st.problems.length))
      = some ([6], 0) := by
  decide

/-! ## C1 — `merge_all` ignores supersets -/

/-- If contour `i` has no mergeable partner at a larger index, the inner
scan of `merge_all` yields nothing. -/
theorem first_mergeable_j_eq_none (cs : List Contour) (i : Nat)
    (h : ∀ j, i < j → j < cs.length →
      (cs.getD i contour_dflt).is_mergeable (cs.getD j contour_dflt) = false) :
    first_mergeable_j cs i = none := by
  unfold first_mergeable_j
  rw [List.find?_eq_none]
  intro j hj
  rw [List.mem_range'_1] at hj
  have h1 : i < j := by omega
  have h2 : j < cs.length := by omega
  rw [h j h1 h2]
  exact Bool.false_ne_true

/-- The pair-scan fold never moves off `acc` when every index scans to
nothing. -/
theorem scan_foldl_none (cs : List Contour) (l : List Nat) (acc : Option (Nat × Nat))
    (h : ∀ i ∈ l, first_mergeable_j cs i = none) :
    l.foldl (fun acc i =>
      match first_mergeable_j cs i with
      | some j => some (i, j)
      | none => acc) acc = acc := by
  induction l generalizing acc with
  | nil => rfl
  | cons x xs ih =>
    rw [List.foldl_cons, h x (List.mem_cons_self x xs)]
    exact ih acc fun i hi => h i (List.mem_cons_of_mem x hi)

/-- `find_merge_pair` finds nothing when no contour pair is mergeable. -/
theorem find_merge_pair_eq_none (cs : List Contour)
    (h : ∀ i ∈ List.range cs.length, first_mergeable_j cs i = none) :
    find_merge_pair cs = none :=
  scan_foldl_none cs _ none h

/-- C1 (amended): `merge_all` only acts on *mergeable* pairs.  When no pair
of contours in the repository is mergeable — in particular when one contour
is a superset of another but not mergeable with it — `merge_all` returns
the repository unchanged: the subset contour is *not* dropped (nothing in
the repository ever calls `is_superset_of`), and a fortiori the boundary of
the larger contour is untouched. -/
theorem c1_amended_unmergeable_pairs_untouched (cs : List Contour) (ps : List Edge)
    (h : ∀ i ∈ List.range cs.length, ∀ j ∈ List.range cs.length, i < j →
      (cs.getD i contour_dflt).is_mergeable (cs.getD j contour_dflt) = false)
    (fuel : Nat) :
    Contours.merge_all (fuel + 1) ⟨cs, ps⟩ = some ⟨cs, ps⟩ := by
  have hnone : find_merge_pair cs = none := by
    apply find_merge_pair_eq_none
    intro i _
    apply first_mergeable_j_eq_none
    intro j h1 h2
    exact h i (List.mem_range.mpr (lt_trans h1 h2)) j (List.mem_range.mpr h2) h1
  unfold Contours.merge_all
  simp [hnone]

/-- Witness for the amended C1 at the 3×3/1×1 superset pair. -/
theorem c1_witness :
    Contours.merge_all 4 ⟨[sq3x3, sq1x1], []⟩ = some ⟨[sq3x3, sq1x1], []⟩ :=
  c1_amended_unmergeable_pairs_untouched [sq3x3, sq1x1] [] (by decide) 3

/-- C1 counterexample: for the 3×3 square and the 1×1 square strictly
inside it, `is_superset_of` holds and the pair is not mergeable — yet
`merge_all` keeps *both* contours (the subset `sq1x1` is still in the
working set afterwards), contrary to the claim that it is dropped. -/
theorem c1_counterexample :
    sq3x3.is_superset_of sq1x1 = true ∧
    sq3x3.is_mergeable sq1x1 = false ∧
    Contours.merge_all 5 ⟨[sq3x3, sq1x1], []⟩ = some ⟨[sq3x3, sq1x1], []⟩ := by
  exact ⟨by decide, by decide, by decide⟩

/-! ## C3 — mergeability is not symmetric (the fully collinear case) -/

/-- All four endpoint classifications of the pair are `Collinear` — the
guard of `touches`' special case. -/
def fully_collinear (e1 e2 : Edge) : Prop :=
  e1.turning e2.s = .Collinear ∧ e1.turning e2.e = .Collinear ∧
  e2.turning e1.s = .Collinear ∧ e2.turning e1.e = .Collinear

instance (e1 e2 : Edge) : Decidable (fully_collinear e1 e2) := by
  unfold fully_collinear; infer_instance

theorem fully_collinear_symm (e1 e2 : Edge) :
    fully_collinear e1 e2 ↔ fully_collinear e2 e1 := by
  unfold fully_collinear; tauto

/-- `crosses` is symmetric: swapping the edges swaps the two side tests. -/
theorem crosses_symm (e1 e2 : Edge) : e1.crosses e2 = e2.crosses e1 := by
  simp only [Edge.crosses]
  generalize e1.turning e2.s = t1
  generalize e1.turning e2.e = t2
  generalize e2.turning e1.s = t3
  generalize e2.turning e1.e = t4
  cases t1 <;> cases t2 <;> cases t3 <;> cases t4 <;> rfl

/-- `touches` is symmetric except possibly in the fully collinear special
case (whose endpoint-distance test is genuinely asymmetric). -/
theorem touches_symm_of (e1 e2 : Edge) (h : ¬ fully_collinear e1 e2) :
    e1.touches e2 = e2.touches e1 := by
  unfold fully_collinear at h
  revert h
  simp only [Edge.touches]
  generalize e1.turning e2.s = t1
  generalize e1.turning e2.e = t2
  generalize e2.turning e1.s = t3
  generalize e2.turning e1.e = t4
  intro h
  cases t1 <;> cases t2 <;> cases t3 <;> cases t4 <;>
    first
      | rfl
      | exact absurd ⟨rfl, rfl, rfl, rfl⟩ h

/-- One direction of contour-level symmetry under the no-fully-collinear
side condition. -/
theorem is_mergeable_true_swap (A B : Contour)
    (h : ∀ ea ∈ A.edges, ∀ eb ∈ B.edges, ¬ fully_collinear ea eb)
    (hm : A.is_mergeable B = true) : B.is_mergeable A = true := by
  unfold Contour.is_mergeable at hm ⊢
  simp only [List.any_eq_true, Bool.or_eq_true] at hm ⊢
  obtain ⟨se, hse, oe, hoe, hco⟩ := hm
  refine ⟨oe, hoe, se, hse, ?_⟩
  rw [crosses_symm oe se, touches_symm_of oe se
    (fun hfc => h se hse oe hoe ((fully_collinear_symm oe se).mp hfc))]
  exact hco

/-- C3 (amended): the edge-level test is symmetric away from the fully
collinear case — `crosses` always, `touches` whenever not all four turnings
are `Collinear` — and consequently `is_mergeable` is symmetric for contour
pairs none of whose edge pairs is fully collinear.  (In the fully collinear
case symmetry genuinely fails: see the counterexample, a thin sliver lying
inside the ε-band of another contour's long edge.) -/
theorem c3_amended_symmetry :
    (∀ e1 e2 : Edge, e1.crosses e2 = e2.crosses e1) ∧
    (∀ e1 e2 : Edge, ¬ fully_collinear e1 e2 → e1.touches e2 = e2.touches e1) ∧
    (∀ A B : Contour, (∀ ea ∈ A.edges, ∀ eb ∈ B.edges, ¬ fully_collinear ea eb) →
      A.is_mergeable B = B.is_mergeable A) := by
  refine ⟨crosses_symm, touches_symm_of, fun A B h => ?_⟩
  rw [Bool.eq_iff_iff]
  constructor
  · exact is_mergeable_true_swap A B h
  · exact is_mergeable_true_swap B A fun eb hb ea ha hf =>
      h ea ha eb hb ((fully_collinear_symm eb ea).mp hf)

/-- Witness for the amended C3 at the (nowhere fully collinear) 3×3/1×1
pair. -/
theorem c3_witness : sq3x3.is_mergeable sq1x1 = sq1x1.is_mergeable sq3x3 :=
  c3_amended_symmetry.2.2 sq3x3 sq1x1 (by decide)

/-- A thin 4 × 0.0018 sliver whose whole boundary lies inside the ε-band
(`E = 0.001`) of the line `y = 0`, spanning `x ∈ [3, 7]`. -/
def sliverA : Contour :=
  contPoly [⟨3, -9/10000⟩, ⟨7, -9/10000⟩, ⟨7, 9/10000⟩, ⟨3, 9/10000⟩]

/-- A large box below `y = 0` whose top edge runs from `(0,0)` to `(10,0)`,
so that `sliverA` hugs that edge's interior while staying away from its
endpoints. -/
def boxB : Contour := contPoly [⟨0,0⟩, ⟨0,-20⟩, ⟨10,-20⟩, ⟨10,0⟩]

/-- C3 counterexample: `is_mergeable` is *not* symmetric.  Every edge pair
of `sliverA` × `boxB` fails `crosses` and fails `touches` (the fully
collinear pairs test only `boxB`'s far-away endpoints against the sliver),
but in the swapped direction the sliver's endpoints lie within ε of
`boxB`'s top edge, so `touches` — and hence `is_mergeable` — holds. -/
theorem c3_counterexample :
    sliverA.is_mergeable boxB = false ∧ boxB.is_mergeable sliverA = true := by
  exact ⟨by decide, by decide⟩

/-! ## C8 — zero growth is the identity on every shape -/

/-- `p2eq` is reflexive: both coordinate differences are `0 < E`. -/
theorem p2eq_refl (p : Pt) : p2eq p p = true := by
  simp only [p2eq, feq, sub_self, abs_zero, Bool.and_eq_true, decide_eq_true_eq]
  norm_num [E]

/-- C8: growing any shape by `0` is the identity — `Line.grow` adds
`0 * 2` to the thickness, `Circle.grow` adds `0` to the radius, and
`ConvexPolygon::grow` returns early on `offset == 0.0` — so the boundary
produced after `grow(0)` is pointwise `p2eq`-equal (in fact equal) to the
boundary produced before, for every tessellator. -/
theorem c8_grow_zero_identity (T : Tess) (s : ShapeE) :
    ShapeE.grow T 0 s = s ∧
    List.Forall₂ (fun p q => p2eq p q = true)
      ((ShapeE.grow T 0 s).boundary T) (s.boundary T) := by
  have hg : ShapeE.grow T 0 s = s := by
    cases s with
    | Line l =>
      show ShapeE.Line (l.grow 0) = ShapeE.Line l
      unfold Line.grow
      simp
    | Poly p =>
      show ShapeE.Poly (p.grow T 0) = ShapeE.Poly p
      unfold ConvexPolygon.grow
      simp
    | Circ c =>
      show ShapeE.Circ (c.grow 0) = ShapeE.Circ c
      unfold Circle.grow
      simp
  refine ⟨hg, ?_⟩
  rw [hg]
  exact List.forall₂_same.mpr fun p _ => p2eq_refl p

/-! ## C7 — the containment invariant -/

/-- Every contour in a successful stitch result either was there before the
stitch or carries exactly the constituent list the stitch was given. -/
theorem stitch_outer_area_mem (area : List ShapeE) (fuel : Nat)
    (edges : List (Edge × Tag)) (cs : List Contour) (ps : List Edge)
    (res : List Contour × List Edge)
    (h : stitch_outer area fuel edges cs ps = some res) :
    ∀ c ∈ res.1, c ∈ cs ∨ c.area = area := by
  induction fuel generalizing edges cs ps with
  | zero => rw [stitch_outer_zero] at h; exact absurd h (by simp)
  | succ n ih =>
    rw [stitch_outer_succ] at h
    cases hl : edges.getLast? with
    | none =>
      simp only [hl] at h
      obtain rfl := Option.some.inj h
      intro c hc
      exact Or.inl hc
    | some prev =>
      cases hsi : stitch_inner (edges.dropLast.length + 1) edges.dropLast prev.1 [] prev with
      | fuelout =>
        simp only [hl, hsi] at h
        exact absurd h (by simp)
      | failed pr =>
        simp only [hl, hsi] at h
        obtain rfl := Option.some.inj h
        intro c hc
        exact Or.inl hc
      | closed rem acc =>
        simp only [hl, hsi] at h
        intro c hc
        rcases ih rem (cs ++ [⟨acc.map (·.s), area⟩]) ps h c hc with hmem | harea
        · rcases List.mem_append.mp hmem with h1 | h2
          · exact Or.inl h1
          · rw [List.mem_singleton.mp h2]
            exact Or.inr rfl
        · exact Or.inr harea

/-- Every contour produced by `Contours::merge` either predates the merge
or carries the concatenated constituent list of the two merged contours. -/
theorem merge_area_mem (st : Contours) (a b : Contour) (st' : Contours)
    (h : Contours.merge st a b = some st') :
    ∀ c ∈ st'.contours, c ∈ st.contours ∨ c.area = a.area ++ b.area := by
  unfold Contours.merge at h
  cases hba : a.break_edges b with
  | none => simp [hba] at h
  | some ea =>
    cases hbb : b.break_edges a with
    | none => simp [hba, hbb] at h
    | some eb =>
      simp only [hba, hbb] at h
      split at h
      · exact absurd h (by simp)
      · rename_i cs ps heq
        obtain rfl := Option.some.inj h
        exact stitch_outer_area_mem _ _ _ _ _ _ heq

/-- C7: a contour contains a point iff one of its constituent shapes does
(the cached boundary plays no role in the query); a freshly created contour
has exactly its creating shape as constituent; and every contour produced
by a merge carries the union (concatenation) of the two parents'
constituent lists — so the invariant is preserved by every operation. -/
theorem c7_contains_invariant :
    (∀ (c : Contour) (p : Pt), c.contains p = true ↔ ∃ s ∈ c.area, s.contains p = true) ∧
    (∀ (T : Tess) (s : ShapeE), (Contour.new T s).area = [s]) ∧
    (∀ (st : Contours) (a b : Contour) (st' : Contours),
      Contours.merge st a b = some st' →
      ∀ c ∈ st'.contours, c ∈ st.contours ∨ c.area = a.area ++ b.area) := by
  refine ⟨fun c p => ?_, fun T s => rfl, merge_area_mem⟩
  unfold Contour.contains
  exact List.any_eq_true

/-- The repository state produced by merging the two unit squares into an
empty repository (checked by computation in `c7_witness`). -/
def sixVertexMerged : Contours :=
  ⟨[⟨[⟨1,0⟩, ⟨2,0⟩, ⟨2,1⟩, ⟨1,1⟩, ⟨0,1⟩, ⟨0,0⟩],
     [.Poly ⟨[⟨1,0⟩, ⟨1,1⟩, ⟨0,1⟩, ⟨0,0⟩], 1⟩,
      .Poly ⟨[⟨2,0⟩, ⟨2,1⟩, ⟨1,1⟩, ⟨1,0⟩], 1⟩]⟩], []⟩

set_option maxHeartbeats 1000000 in
/-- Witness for C7 on the successful merge of the two unit squares: the
resulting contour's constituent list is the concatenation of the parents'. -/
theorem c7_witness :
    sixVertexMerged.contours.getD 0 contour_dflt ∈ (⟨[], []⟩ : Contours).contours ∨
      (sixVertexMerged.contours.getD 0 contour_dflt).area =
        usq_left.area ++ usq_right.area :=
  c7_contains_invariant.2.2 ⟨[], []⟩ usq_left usq_right sixVertexMerged
    (by decide) _ (by decide)

/-! ## C6 — stitching failures terminate and are recorded -/

/-- A successful `find_next` returns an in-bounds pool index. -/
theorem find_next_lt (l : List (Edge × Tag)) (pt : Pt) (tag : Tag)
    (r : Nat × Edge × Tag) (h : find_next l pt tag = some r) : r.1 < l.length := by
  induction l generalizing r with
  | nil => exact absurd h (by simp [find_next])
  | cons x xs ih =>
    obtain ⟨ed, tg⟩ := x
    unfold find_next at h
    split at h
    · obtain rfl := Option.some.inj h
      simp
    · cases hfn : find_next xs pt tag with
      | none => rw [hfn] at h; exact absurd h (by simp)
      | some q =>
        rw [hfn] at h
        simp only [Option.map_some'] at h
        obtain rfl := Option.some.inj h
        have := ih q hfn
        simp only [List.length_cons]
        omega

/-- The tag-preferring lookup of the stitch loop returns an in-bounds
index. -/
theorem find_next_pair_lt (edges : List (Edge × Tag)) (pt : Pt) (tag : Tag)
    (r : Nat × Edge × Tag)
    (h : ((find_next edges pt tag.other).orElse
      (fun _ => find_next edges pt tag)) = some r) : r.1 < edges.length := by
  cases hfn : find_next edges pt tag.other with
  | some q =>
    rw [hfn] at h
    simp only [Option.orElse] at h
    exact find_next_lt edges pt tag.other r (hfn.trans h)
  | none =>
    rw [hfn] at h
    simp only [Option.orElse] at h
    exact find_next_lt edges pt tag r h

/-- The inner stitch loop cannot exhaust its fuel when the fuel exceeds the
pool size: every pass consumes a pool entry. -/
theorem stitch_inner_ne_fuelout : ∀ (fuel : Nat) (edges : List (Edge × Tag))
    (first : Edge) (accTail : List Edge) (prev : Edge × Tag),
    edges.length < fuel →
    stitch_inner fuel edges first accTail prev ≠ .fuelout := by
  intro fuel
  induction fuel with
  | zero => intro edges first accTail prev h; omega
  | succ n ih =>
    intro edges first accTail prev h
    unfold stitch_inner
    by_cases hc : p2eq prev.1.e first.s = true
    · simp [hc]
    · rw [if_neg hc]
      cases hm : (find_next edges prev.1.e prev.2.other).orElse
          (fun _ => find_next edges prev.1.e prev.2) with
      | none => simp
      | some q =>
        obtain ⟨i, e', c'⟩ := q
        show stitch_inner n (edges.eraseIdx i) first (accTail ++ [e']) (e', c') ≠ .fuelout
        apply ih
        have hi : i < edges.length := find_next_pair_lt edges prev.1.e prev.2 _ hm
        rw [List.length_eraseIdx, if_pos hi]
        omega

/-- A closed chain leaves a pool no larger than the one it started from. -/
theorem stitch_inner_closed_length : ∀ (fuel : Nat) (edges : List (Edge × Tag))
    (first : Edge) (accTail : List Edge) (prev : Edge × Tag)
    (rem : List (Edge × Tag)) (acc : List Edge),
    stitch_inner fuel edges first accTail prev = .closed rem acc →
    rem.length ≤ edges.length := by
  intro fuel
  induction fuel with
  | zero =>
    intro edges first accTail prev rem acc h
    exact absurd h (by simp [stitch_inner])
  | succ n ih =>
    intro edges first accTail prev rem acc h
    unfold stitch_inner at h
    by_cases hc : p2eq prev.1.e first.s = true
    · rw [if_pos hc] at h
      injection h with h1 _
      subst h1
      exact Nat.le_refl _
    · rw [if_neg hc] at h
      cases hm : (find_next edges prev.1.e prev.2.other).orElse
          (fun _ => find_next edges prev.1.e prev.2) with
      | none => rw [hm] at h; exact absurd h (by simp)
      | some q =>
        obtain ⟨i, e', c'⟩ := q
        rw [hm] at h
        have hr := ih (edges.eraseIdx i) first (accTail ++ [e']) (e', c') rem acc h
        have : (edges.eraseIdx i).length ≤ edges.length := by
          rw [List.length_eraseIdx]
          split <;> omega
        omega

/-- The dead-end branch of the inner stitch loop: when the chain is open and
no continuation exists, the loop reports `failed` with exactly the partial
chain followed by every unconsumed pool edge. -/
theorem stitch_inner_failure_eq (fuel : Nat) (edges : List (Edge × Tag))
    (first : Edge) (accTail : List Edge) (prev : Edge × Tag)
    (hc : p2eq prev.1.e first.s = false)
    (hm : (find_next edges prev.1.e prev.2.other).orElse
      (fun _ => find_next edges prev.1.e prev.2) = none) :
    stitch_inner (fuel + 1) edges first accTail prev =
      .failed ((first :: accTail) ++ edges.map (·.1)) := by
  unfold stitch_inner
  rw [if_neg (by simp [hc]), hm]

/-- A stitching failure makes the outer loop return immediately: the
contours closed so far are kept, and the problem list is extended by the
failure report. -/
theorem stitch_outer_failure_eq (area : List ShapeE) (fuel : Nat)
    (edges : List (Edge × Tag)) (cs : List Contour) (ps : List Edge)
    (prev : Edge × Tag) (pr : List Edge)
    (hl : edges.getLast? = some prev)
    (hf : stitch_inner (edges.dropLast.length + 1) edges.dropLast prev.1 [] prev
      = .failed pr) :
    stitch_outer area (fuel + 1) edges cs ps = some (cs, ps ++ pr) := by
  rw [stitch_outer_succ]
  simp only [hl, hf]

/-- The outer stitch loop terminates within `pool size + 1` rounds: each
round pops the seed, and a closed chain only ever shrinks the pool. -/
theorem stitch_outer_ne_none : ∀ (fuel : Nat) (area : List ShapeE)
    (edges : List (Edge × Tag)) (cs : List Contour) (ps : List Edge),
    edges.length < fuel →
    stitch_outer area fuel edges cs ps ≠ none := by
  intro fuel
  induction fuel with
  | zero => intro area edges cs ps h; omega
  | succ n ih =>
    intro area edges cs ps h
    rw [stitch_outer_succ]
    cases hl : edges.getLast? with
    | none => simp [hl]
    | some prev =>
      have hne : edges ≠ [] := by
        intro he
        rw [he] at hl
        exact absurd hl (by simp)
      have hpos : 0 < edges.length := List.length_pos.mpr hne
      have hdrop : edges.dropLast.length = edges.length - 1 := by
        simp [List.length_dropLast]
      cases hsi : stitch_inner (edges.dropLast.length + 1) edges.dropLast prev.1 [] prev with
      | fuelout =>
        exact absurd hsi (stitch_inner_ne_fuelout _ _ _ _ _ (Nat.lt_succ_self _))
      | failed pr =>
        simp only [hl, hsi]
        simp
      | closed rem acc =>
        simp only [hl, hsi]
        apply ih
        have := stitch_inner_closed_length _ _ _ _ _ _ _ hsi
        omega

/-- C6: the stitching phase of `merge` neither panics nor loops, and
handles dead ends exactly as specified.  Conjuncts: (1) the inner loop
always terminates within `pool + 1` passes; (2) at a dead end (open chain,
no continuation with either tag) it returns `failed` carrying the partial
chain plus all unconsumed sub-edges; (3) the outer loop then returns at
once, keeping every loop already closed during this merge and appending the
failure report to the problems list; (4) the outer loop itself terminates
within `pool + 1` rounds. -/
theorem c6_stitch_failure_handled :
    (∀ (fuel : Nat) (edges : List (Edge × Tag)) (first : Edge)
        (accTail : List Edge) (prev : Edge × Tag), edges.length < fuel →
        stitch_inner fuel edges first accTail prev ≠ .fuelout) ∧
    (∀ (fuel : Nat) (edges : List (Edge × Tag)) (first : Edge)
        (accTail : List Edge) (prev : Edge × Tag),
        p2eq prev.1.e first.s = false →
        (find_next edges prev.1.e prev.2.other).orElse
          (fun _ => find_next edges prev.1.e prev.2) = none →
        stitch_inner (fuel + 1) edges first accTail prev =
          .failed ((first :: accTail) ++ edges.map (·.1))) ∧
    (∀ (area : List ShapeE) (fuel : Nat) (edges : List (Edge × Tag))
        (cs : List Contour) (ps : List Edge) (prev : Edge × Tag) (pr : List Edge),
        edges.getLast? = some prev →
        stitch_inner (edges.dropLast.length + 1) edges.dropLast prev.1 [] prev
          = .failed pr →
        stitch_outer area (fuel + 1) edges cs ps = some (cs, ps ++ pr)) ∧
    (∀ (fuel : Nat) (area : List ShapeE) (edges : List (Edge × Tag))
        (cs : List Contour) (ps : List Edge), edges.length < fuel →
        stitch_outer area fuel edges cs ps ≠ none) :=
  ⟨stitch_inner_ne_fuelout, stitch_inner_failure_eq, stitch_outer_failure_eq,
    stitch_outer_ne_none⟩

/-- Witness for C6: a one-edge pool whose seed has no continuation — the
outer loop returns with the lone edge recorded as a problem and no contour
created. -/
theorem c6_witness :
    stitch_outer [] 1 [(Edge.mk ⟨0,0⟩ ⟨2,0⟩, Tag.A)] [] []
      = some ([], [Edge.mk ⟨0,0⟩ ⟨2,0⟩]) :=
  c6_stitch_failure_handled.2.2.1 [] 0 [(Edge.mk ⟨0,0⟩ ⟨2,0⟩, Tag.A)] [] []
    (Edge.mk ⟨0,0⟩ ⟨2,0⟩, Tag.A) [Edge.mk ⟨0,0⟩ ⟨2,0⟩] (by decide) (by decide)

/-! ## C2 — `touches` on fully collinear edges vs interval overlap -/

@[simp] theorem smul_x (a : ℚ) (p : Pt) : (smul a p).x = a * p.x := rfl

@[simp] theorem smul_y (a : ℚ) (p : Pt) : (smul a p).y = a * p.y := rfl

@[simp] theorem vleft_x (v : Pt) : (vleft v).x = -v.y := rfl

@[simp] theorem vleft_y (v : Pt) : (vleft v).y = v.x := rfl

/-- The square of the tolerance is positive. -/
theorem E_sq_pos : (0:ℚ) < E ^ 2 := by norm_num [E]

/-- A `p2eq`-nonzero edge has a coordinate span of at least `E`. -/
theorem vec_large_of_p2eq_false (ed : Edge) (h : p2eq ed.s ed.e = false) :
    E ≤ |ed.vec.x| ∨ E ≤ |ed.vec.y| := by
  unfold p2eq feq at h
  rw [Bool.and_eq_false_iff] at h
  rcases h with h | h
  · left
    rw [decide_eq_false_iff_not, not_lt] at h
    rw [show ed.vec.x = -(ed.s.x - ed.e.x) from by simp [Edge.vec], abs_neg]
    exact h
  · right
    rw [decide_eq_false_iff_not, not_lt] at h
    rw [show ed.vec.y = -(ed.s.y - ed.e.y) from by simp [Edge.vec], abs_neg]
    exact h

/-- A `p2eq`-nonzero edge has squared length at least `E ^ 2`. -/
theorem normSq_vec_large (ed : Edge) (h : E ≤ |ed.vec.x| ∨ E ≤ |ed.vec.y|) :
    E ^ 2 ≤ normSq ed.vec := by
  have hE : (0:ℚ) < E := by norm_num [E]
  unfold normSq
  rcases h with h | h
  · nlinarith [abs_nonneg ed.vec.x, sq_abs ed.vec.x, sq_nonneg ed.vec.y]
  · nlinarith [abs_nonneg ed.vec.y, sq_abs ed.vec.y, sq_nonneg ed.vec.x]

/-- On the perpendicular-foot branch of `distance`, `find_intersection`
returns exactly the query point when that point lies on the edge's line
(and reaches neither `closest_center` nor an assert, justifying the junk
distance parameter of `fi_noCC`). -/
theorem fi_foot_on_line (e : Edge) (τ : ℚ) (hvx : E ≤ |e.vec.x|) :
    fi_noCC e ⟨e.s + smul τ e.vec, e.s + smul τ e.vec + vleft e.vec⟩ =
      some (e.s + smul τ e.vec) := by
  have hE : (0:ℚ) < E := by norm_num [E]
  obtain ⟨⟨sx, sy⟩, ⟨ex, ey⟩⟩ := e
  simp only [Edge.vec, Pt.sub_def] at hvx ⊢
  have hvx0 : ex - sx ≠ 0 := by
    intro h0
    rw [h0] at hvx
    simp at hvx
    linarith
  unfold fi_noCC find_intersection_with
  dsimp only [Pt.add_x, Pt.add_y, Pt.sub_x, Pt.sub_y, smul_x, smul_y, vleft_x, vleft_y]
  rw [if_neg, if_neg, if_neg]
  rotate_left
  · exact not_lt.mpr hvx
  · intro hand
    exact absurd hand.1 (not_lt.mpr hvx)
  · intro hand
    apply absurd hand.2
    rw [show sy + τ * (ey - sy) + (ex - sx) - (sy + τ * (ey - sy)) = ex - sx from by ring]
    exact not_lt.mpr hvx
  simp only [show sx + τ * (ex - sx) + -(ey - sy) - (sx + τ * (ex - sx)) = -(ey - sy)
      from by ring,
    show sy + τ * (ey - sy) + (ex - sx) - (sy + τ * (ey - sy)) = ex - sx from by ring,
    abs_neg]
  by_cases hvy : |ey - sy| < E
  · rw [if_pos hvy]
    congr 1
    apply Pt.ext
    · dsimp
    · dsimp
      field_simp
      ring
  · rw [if_neg hvy]
    have hvy' : E ≤ |ey - sy| := not_lt.mp hvy
    have hvy0 : ey - sy ≠ 0 := by
      intro h0
      rw [h0] at hvy'
      simp at hvy'
      linarith
    have hvy0b : sy - ey ≠ 0 := fun h0 => hvy0 (by linarith)
    have hpoly : (0:ℚ) < (ey - sy) * (ey - sy) + (ex - sx) * (ex - sx) := by
      have h1 : 0 < (ex - sx) * (ex - sx) := mul_self_pos.mpr hvx0
      have h2 : 0 ≤ (ey - sy) * (ey - sy) := mul_self_nonneg _
      linarith
    have hsum : (2:ℚ) ≤ |(ey - sy) / (ex - sx) + (ex - sx) / (ey - sy)| := by
      have hq := sq_nonneg ((ey - sy) / (ex - sx) - (ex - sx) / (ey - sy))
      have hexp : ((ey - sy) / (ex - sx) + (ex - sx) / (ey - sy)) ^ 2 - 4 =
          ((ey - sy) / (ex - sx) - (ex - sx) / (ey - sy)) ^ 2 := by
        field_simp
        ring
      have hS2 : 4 ≤ ((ey - sy) / (ex - sx) + (ex - sx) / (ey - sy)) ^ 2 := by linarith
      nlinarith [sq_abs ((ey - sy) / (ex - sx) + (ex - sx) / (ey - sy)),
        abs_nonneg ((ey - sy) / (ex - sx) + (ex - sx) / (ey - sy))]
    have hmm : (ey - sy) / (ex - sx) - (ex - sx) / -(ey - sy) =
        (ey - sy) / (ex - sx) + (ex - sx) / (ey - sy) := by
      field_simp
      ring
    rw [if_neg]
    rotate_left
    · rw [feq, decide_eq_true_eq, not_lt, hmm]
      calc E ≤ 2 := by norm_num [E]
      _ ≤ |(ey - sy) / (ex - sx) + (ex - sx) / (ey - sy)| := hsum
    have hne : (ey - sy) / (ex - sx) - (ex - sx) / -(ey - sy) ≠ 0 := by
      rw [hmm]
      intro h0
      rw [h0] at hsum
      simp at hsum
      linarith
    have hX : (sx * ((ey - sy) / (ex - sx)) - (sx + τ * (ex - sx)) * ((ex - sx) / -(ey - sy))
          - sy + (sy + τ * (ey - sy))) /
        ((ey - sy) / (ex - sx) - (ex - sx) / -(ey - sy)) = sx + τ * (ex - sx) := by
      rw [div_eq_iff hne]
      field_simp
      ring
    congr 1
    apply Pt.ext
    · dsimp
      exact hX
    · dsimp
      rw [hX]
      field_simp
      ring


/-- Squared-threshold transfer: `(a·L)² < E²·L ↔ a²·L < E²` for `L > 0`. -/
theorem sq_scale_iff (L : ℚ) (hL : 0 < L) (a : ℚ) :
    ((-(a * L)) ^ 2 < E ^ 2 * L) ↔ a ^ 2 * L < E ^ 2 := by
  rw [show (-(a * L)) ^ 2 = (a ^ 2 * L) * L from by ring]
  exact mul_lt_mul_right hL

/-- The start-perpendicular turning test of `distance`'s foot branch,
characterised for a point on the edge's line. -/
theorem turning_start_perp (e : Edge) (τ : ℚ) (hLpos : 0 < normSq e.vec) :
    (Edge.turning ⟨e.s, e.s + vleft e.vec⟩ (e.s + smul τ e.vec) ≠ .Left) ↔
    (0 ≤ τ ∨ τ ^ 2 * normSq e.vec < E ^ 2) := by
  unfold Edge.turning
  have hvec : (Edge.mk e.s (e.s + vleft e.vec)).vec = vleft e.vec := by
    apply Pt.ext <;> simp [Edge.vec]
  have hc : crossp (vleft e.vec) ((e.s + smul τ e.vec) - e.s) = -(τ * normSq e.vec) := by
    simp [crossp, normSq]
    ring
  have hN : normSq (vleft e.vec) = normSq e.vec := by
    simp [normSq]
    ring
  simp only [hvec, hc, hN]
  by_cases hcc : τ ^ 2 * normSq e.vec < E ^ 2
  · rw [if_pos ((sq_scale_iff _ hLpos τ).mpr hcc)]
    exact iff_of_true (by simp) (Or.inr hcc)
  · rw [if_neg fun hcon => hcc ((sq_scale_iff _ hLpos τ).mp hcon)]
    by_cases hpos : 0 < -(τ * normSq e.vec)
    · rw [if_pos hpos]
      apply iff_of_false (by simp)
      rintro (h | h)
      · nlinarith
      · exact hcc h
    · rw [if_neg hpos]
      refine iff_of_true (by simp) (Or.inl ?_)
      nlinarith [not_lt.mp hpos]

/-- The end-perpendicular turning test of `distance`'s foot branch,
characterised for a point on the edge's line. -/
theorem turning_end_perp (e : Edge) (τ : ℚ) (hLpos : 0 < normSq e.vec) :
    (Edge.turning ⟨e.e, e.e + vleft e.vec⟩ (e.s + smul τ e.vec) ≠ .Right) ↔
    (τ ≤ 1 ∨ (τ - 1) ^ 2 * normSq e.vec < E ^ 2) := by
  have hE2 : (0:ℚ) < E ^ 2 := E_sq_pos
  unfold Edge.turning
  have hvec : (Edge.mk e.e (e.e + vleft e.vec)).vec = vleft e.vec := by
    apply Pt.ext <;> simp [Edge.vec]
  have hc : crossp (vleft e.vec) ((e.s + smul τ e.vec) - e.e) =
      -((τ - 1) * normSq e.vec) := by
    simp [crossp, normSq, Edge.vec]
    ring
  have hN : normSq (vleft e.vec) = normSq e.vec := by
    simp [normSq]
    ring
  simp only [hvec, hc, hN]
  by_cases hcc : (τ - 1) ^ 2 * normSq e.vec < E ^ 2
  · rw [if_pos ((sq_scale_iff _ hLpos (τ - 1)).mpr hcc)]
    exact iff_of_true (by simp) (Or.inr hcc)
  · rw [if_neg fun hcon => hcc ((sq_scale_iff _ hLpos (τ - 1)).mp hcon)]
    by_cases hpos : 0 < -((τ - 1) * normSq e.vec)
    · rw [if_pos hpos]
      refine iff_of_true (by simp) (Or.inl ?_)
      nlinarith
    · rw [if_neg hpos]
      apply iff_of_false (by simp)
      rintro (h | h)
      · have h1 : 1 ≤ τ := by nlinarith [not_lt.mp hpos]
        have hne1 : τ ≠ 1 := by
          intro h0
          rw [h0] at hcc
          simp at hcc
          linarith
        have : τ = 1 := le_antisymm h h1
        exact hne1 this
      · exact hcc h

set_option maxHeartbeats 1600000 in
/-- `distance` of a point on the edge's line, squared and compared with
`E²`, characterised by the projection parameter `τ` (the point is
`start + τ·vec`): the distance is below the tolerance iff `τ` is within
(an `ε/‖vec‖`-fringe of) the parameter interval `[0, 1]`. -/
theorem distance_sq_collinear_lt (e : Edge) (τ : ℚ)
    (hv : E ≤ |e.vec.x| ∨ E ≤ |e.vec.y|) :
    (e.distance_sq (e.s + smul τ e.vec) < E ^ 2) ↔
    ((0 ≤ τ ∨ τ ^ 2 * normSq e.vec < E ^ 2) ∧
     (τ ≤ 1 ∨ (τ - 1) ^ 2 * normSq e.vec < E ^ 2)) := by
  have hE : (0:ℚ) < E := by norm_num [E]
  have hE2 : (0:ℚ) < E ^ 2 := E_sq_pos
  have hL : E ^ 2 ≤ normSq e.vec := normSq_vec_large e hv
  have hLpos : 0 < normSq e.vec := lt_of_lt_of_le hE2 hL
  have hp2s : normSq (e.s - (e.s + smul τ e.vec)) = τ ^ 2 * normSq e.vec := by
    simp [normSq]
    ring
  have hp2e : normSq (e.e - (e.s + smul τ e.vec)) = (τ - 1) ^ 2 * normSq e.vec := by
    simp [normSq, Edge.vec]
    ring
  unfold Edge.distance_sq distance_sq_with
  simp only []
  by_cases h1 : normSq (e.s - (e.s + smul τ e.vec)) < E ^ 2 ∨
      normSq (e.e - (e.s + smul τ e.vec)) < E ^ 2
  · rw [if_pos h1]
    rw [hp2s, hp2e] at h1
    refine iff_of_true hE2 ?_
    rcases h1 with h | h
    · have hτ2 : τ ^ 2 * normSq e.vec < normSq e.vec := lt_of_lt_of_le h hL
      constructor
      · exact Or.inr h
      · left
        nlinarith
    · have hτ2 : (τ - 1) ^ 2 * normSq e.vec < normSq e.vec := lt_of_lt_of_le h hL
      constructor
      · left
        nlinarith
      · exact Or.inr h
  · rw [if_neg h1]
    push_neg at h1
    rw [hp2s, hp2e] at h1
    obtain ⟨h1s, h1e⟩ := h1
    have hmin : ¬ (min (normSq (e.s - (e.s + smul τ e.vec)))
        (normSq (e.e - (e.s + smul τ e.vec))) < E ^ 2) := by
      rw [hp2s, hp2e]
      exact not_lt.mpr (le_min h1s h1e)
    by_cases h2 : feq e.vec.x 0 = true
    · rw [if_pos h2]
      have hvx : |e.vec.x| < E := by
        rw [feq, decide_eq_true_eq, sub_zero] at h2
        exact h2
      have hvy : E ≤ |e.vec.y| := by
        rcases hv with h | h
        · linarith
        · exact h
      have hvy0 : e.vec.y ≠ 0 := by
        intro h0
        rw [h0] at hvy
        simp at hvy
        linarith
      have hvx2 : e.vec.x ^ 2 < E ^ 2 := by
        nlinarith [sq_abs e.vec.x, abs_nonneg e.vec.x]
      by_cases h3 : (e.s.y ≤ (e.s + smul τ e.vec).y ∧ (e.s + smul τ e.vec).y ≤ e.e.y) ∨
          (e.e.y ≤ (e.s + smul τ e.vec).y ∧ (e.s + smul τ e.vec).y ≤ e.s.y)
      · rw [if_pos h3]
        have hey : e.e.y = e.s.y + e.vec.y := by
          simp [Edge.vec]
        have hτ01 : 0 ≤ τ ∧ τ ≤ 1 := by
          rcases h3 with ⟨ha, hb⟩ | ⟨ha, hb⟩ <;>
            simp only [Pt.add_y, smul_y, hey] at ha hb <;>
            rcases lt_or_gt_of_ne hvy0 with hvy' | hvy' <;>
            constructor <;> nlinarith
        have hval : (e.s.x - (e.s + smul τ e.vec).x) ^ 2 = τ ^ 2 * e.vec.x ^ 2 := by
          simp
          ring
        rw [hval]
        refine iff_of_true ?_ ⟨Or.inl hτ01.1, Or.inl hτ01.2⟩
        have hτsq : τ ^ 2 ≤ 1 := by nlinarith [hτ01.1, hτ01.2]
        nlinarith [hτsq, sq_nonneg e.vec.x, hvx2]
      · rw [if_neg h3]
        apply iff_of_false hmin
        rintro ⟨c1, c2⟩
        have hτ0 : 0 ≤ τ := by
          rcases c1 with h | h
          · exact h
          · linarith
        have hτ1 : τ ≤ 1 := by
          rcases c2 with h | h
          · exact h
          · linarith
        apply h3
        have hey : e.e.y = e.s.y + e.vec.y := by
          simp [Edge.vec]
        rcases lt_or_gt_of_ne hvy0 with hvy' | hvy'
        · right
          constructor <;> simp only [Pt.add_y, smul_y, hey] <;> nlinarith
        · left
          constructor <;> simp only [Pt.add_y, smul_y, hey] <;> nlinarith
    · rw [if_neg h2]
      have hvx : E ≤ |e.vec.x| := by
        rw [feq, decide_eq_true_eq, sub_zero] at h2
        exact not_lt.mp (by simpa using h2)
      by_cases h4 : Edge.turning ⟨e.s, e.s + vleft e.vec⟩ (e.s + smul τ e.vec) ≠ .Left ∧
          Edge.turning ⟨e.e, e.e + vleft e.vec⟩ (e.s + smul τ e.vec) ≠ .Right
      · rw [if_pos h4]
        simp only [fi_foot_on_line e τ hvx]
        have hzero : normSq ((e.s + smul τ e.vec) - (e.s + smul τ e.vec)) = 0 := by
          simp [normSq]
        rw [hzero]
        exact iff_of_true hE2
          ⟨(turning_start_perp e τ hLpos).mp h4.1, (turning_end_perp e τ hLpos).mp h4.2⟩
      · rw [if_neg h4]
        apply iff_of_false hmin
        rintro ⟨c1, c2⟩
        exact h4 ⟨(turning_start_perp e τ hLpos).mpr c1, (turning_end_perp e τ hLpos).mpr c2⟩


/-- A point exactly on the edge's supporting line (zero cross product)
classifies as `Collinear` whenever the edge has positive squared length. -/
theorem turning_collinear_of (ed : Edge) (p : Pt)
    (hc : crossp ed.vec (p - ed.s) = 0) (hL : 0 < normSq ed.vec) :
    ed.turning p = .Collinear := by
  have h0 : crossp ed.vec (p - ed.s) ^ 2 < E ^ 2 * normSq ed.vec := by
    rw [hc]
    simpa using mul_pos E_sq_pos hL
  unfold Edge.turning
  simp only []
  rw [if_pos h0]

/-- The projection parameter of a point on the edge's line lies within the
parameter interval `[0, 1]` widened by an `ε∕‖vec‖` fringe (tolerance
comparisons squared, per the file convention): exactly the condition under
which `distance` of that point is below `ε`. -/
def proj_within_eps (e : Edge) (τ : ℚ) : Prop :=
  (0 ≤ τ ∨ τ ^ 2 * normSq e.vec < E ^ 2) ∧
  (τ ≤ 1 ∨ (τ - 1) ^ 2 * normSq e.vec < E ^ 2)

instance (e : Edge) (τ : ℚ) : Decidable (proj_within_eps e τ) := by
  unfold proj_within_eps
  infer_instance

/-- The spec sentence for collinear edges, taken at its word: project both
edges onto `e1`'s direction (coordinates scaled by `‖e1.vec‖`, so `e1`
occupies `[0, normSq e1.vec]`), and ask whether the two intervals come
within `ε` of each other: the gap between them is nonpositive, or its
square is below `ε² · normSq e1.vec` (squared convention for the
`1∕‖vec‖` rescaling). -/
def intervals_overlap_eps (e1 e2 : Edge) : Prop :=
  let L := normSq e1.vec
  let c := min (dot (e2.s - e1.s) e1.vec) (dot (e2.e - e1.s) e1.vec)
  let d := max (dot (e2.s - e1.s) e1.vec) (dot (e2.e - e1.s) e1.vec)
  let g := max (c - L) (-d)
  g ≤ 0 ∨ g ^ 2 < E ^ 2 * L

instance (e1 e2 : Edge) : Decidable (intervals_overlap_eps e1 e2) := by
  unfold intervals_overlap_eps
  infer_instance

/-- C2 (amended): for non-degenerate collinear edges (`e2`'s endpoints at
parameters `τ₁`, `τ₂` along `e1`), all four classifications are `Collinear`,
and `touches e1 e2` holds iff ONE OF `e2`'s ENDPOINTS projects into `e1`'s
fringed parameter interval — an endpoint-of-`e2`-against-`e1` test, not a
symmetric interval-overlap test. -/
theorem c2_amended_collinear_touches_iff (e1 e2 : Edge) (τ₁ τ₂ : ℚ)
    (h1 : p2eq e1.s e1.e = false) (h2 : p2eq e2.s e2.e = false)
    (hs : e2.s = e1.s + smul τ₁ e1.vec) (he : e2.e = e1.s + smul τ₂ e1.vec) :
    fully_collinear e1 e2 ∧
    (e1.touches e2 = true ↔ (proj_within_eps e1 τ₁ ∨ proj_within_eps e1 τ₂)) := by
  have hv1 := vec_large_of_p2eq_false e1 h1
  have hv2 := vec_large_of_p2eq_false e2 h2
  have hL1 : 0 < normSq e1.vec := lt_of_lt_of_le E_sq_pos (normSq_vec_large e1 hv1)
  have hL2 : 0 < normSq e2.vec := lt_of_lt_of_le E_sq_pos (normSq_vec_large e2 hv2)
  have ht1 : e1.turning e2.s = .Collinear := by
    apply turning_collinear_of _ _ _ hL1
    rw [hs]
    simp [crossp]
    ring
  have ht2 : e1.turning e2.e = .Collinear := by
    apply turning_collinear_of _ _ _ hL1
    rw [he]
    simp [crossp]
    ring
  have ht3 : e2.turning e1.s = .Collinear := by
    apply turning_collinear_of _ _ _ hL2
    simp [crossp, Edge.vec, hs, he]
    ring
  have ht4 : e2.turning e1.e = .Collinear := by
    apply turning_collinear_of _ _ _ hL2
    simp [crossp, Edge.vec, hs, he]
    ring
  refine ⟨⟨ht1, ht2, ht3, ht4⟩, ?_⟩
  unfold Edge.touches
  simp only []
  rw [if_pos ⟨ht1, ht2, ht3, ht4⟩]
  rw [Bool.or_eq_true, decide_eq_true_eq, decide_eq_true_eq, hs, he,
    distance_sq_collinear_lt e1 τ₁ hv1, distance_sq_collinear_lt e1 τ₂ hv1]
  exact Iff.rfl

/-- C2 counterexample: `e1 = (4,0)→(6,0)` lies strictly inside
`e2 = (0,0)→(10,0)`; the pair is fully collinear and the projected
intervals overlap (one contains the other), yet `touches e1 e2` is false,
because the collinear branch only tests `e2`'s endpoints against `e1`. -/
theorem c2_counterexample :
    fully_collinear ⟨⟨4,0⟩,⟨6,0⟩⟩ ⟨⟨0,0⟩,⟨10,0⟩⟩ ∧
    intervals_overlap_eps ⟨⟨4,0⟩,⟨6,0⟩⟩ ⟨⟨0,0⟩,⟨10,0⟩⟩ ∧
    p2eq (⟨4,0⟩:Pt) ⟨6,0⟩ = false ∧ p2eq (⟨0,0⟩:Pt) ⟨10,0⟩ = false ∧
    Edge.touches ⟨⟨4,0⟩,⟨6,0⟩⟩ ⟨⟨0,0⟩,⟨10,0⟩⟩ = false := by
  decide

/-- Witness for the amended C2 theorem at `e1 = (0,0)→(2,0)`,
`e2 = (1,0)→(5,0)` (parameters `τ₁ = 1∕2`, `τ₂ = 5∕2`). -/
theorem c2_witness :
    Edge.touches ⟨⟨0,0⟩,⟨2,0⟩⟩ ⟨⟨1,0⟩,⟨5,0⟩⟩ = true ∧
    fully_collinear ⟨⟨0,0⟩,⟨2,0⟩⟩ ⟨⟨1,0⟩,⟨5,0⟩⟩ := by
  have h := c2_amended_collinear_touches_iff ⟨⟨0,0⟩,⟨2,0⟩⟩ ⟨⟨1,0⟩,⟨5,0⟩⟩ (1/2) (5/2)
    (by decide) (by decide) (by decide) (by decide)
  exact ⟨h.2.mpr (Or.inl (by decide)), h.1⟩


end SvgGeo
